import Mathlib

/-
  Verification of the PCA numerical core (pca.c) against its specification.

  The embedding models C doubles as rationals (ℚ); the square-root function
  used by the engine (for the deterministic seed 1/sqrt(n) and vector
  normalization) is passed as an explicit function parameter `sqrt`, since
  every property verified here is structural and holds for any such function.
  Stateful C functions are modelled by explicit state passing: a function
  that mutates a caller buffer returns the new buffer contents; a C function
  returning NULL on failure is modelled with Option.
-/

namespace PCA

/-- Dense matrix: `rows`/`cols` mirror the `int rows, cols` fields of the C
`Matrix` struct; `data` mirrors the 2D array (list of rows). -/
structure Matrix where
  rows : Nat
  cols : Nat
  data : List (List ℚ)
deriving DecidableEq

/-- Element read `mat->data[i][j]`, with 0 as out-of-bounds default. -/
def Matrix.get (m : Matrix) (i j : Nat) : ℚ :=
  (m.data.getD i []).getD j 0

/-- Well-formedness invariant of a C `Matrix` produced by `matrix_create`:
positive dimensions and every row of length `cols` (spec section 3). -/
def Matrix.WF (m : Matrix) : Prop :=
  0 < m.rows ∧ 0 < m.cols ∧ m.data.length = m.rows ∧ ∀ row ∈ m.data, row.length = m.cols

instance (m : Matrix) : Decidable m.WF := by
  unfold Matrix.WF; infer_instance

/-- Embeds `matrix_create`: fails (returns NULL) on non-positive dimensions,
otherwise a zero-initialized rows×cols matrix. -/
def matrix_create (rows cols : Nat) : Option Matrix :=
  if rows = 0 ∨ cols = 0 then none
  else some ⟨rows, cols, List.replicate rows (List.replicate cols 0)⟩

/-- Embeds `matrix_copy`: on shape mismatch the C code prints an error and
leaves `dest` unchanged; otherwise it copies `src`'s elements into `dest`. -/
def matrix_copy (dest src : Matrix) : Matrix :=
  if dest.rows ≠ src.rows ∨ dest.cols ≠ src.cols then dest
  else ⟨dest.rows, dest.cols, src.data⟩

/-- Embeds `matrix_multiply`: NULL when `A->cols != B->rows` or when the
allocation of the result (`matrix_create(A->rows, B->cols)`) fails; otherwise
the product with `C[i][j] = sum_k A[i][k]*B[k][j]`. -/
def matrix_multiply (A B : Matrix) : Option Matrix :=
  if A.cols ≠ B.rows then none
  else match matrix_create A.rows B.cols with
    | none => none
    | some _ =>
      some ⟨A.rows, B.cols, (List.range A.rows).map (fun i =>
        (List.range B.cols).map (fun j =>
          ((List.range A.cols).map (fun k => A.get i k * B.get k j)).sum))⟩

/-- Embeds `matrix_transpose`: `trans->data[j][i] = mat->data[i][j]`. -/
def matrix_transpose (mat : Matrix) : Option Matrix :=
  match matrix_create mat.cols mat.rows with
  | none => none
  | some _ =>
    some ⟨mat.cols, mat.rows, (List.range mat.cols).map (fun j =>
      (List.range mat.rows).map (fun i => mat.get i j))⟩

/-- Helper: reading entry (i, j) of a matrix built from nested range maps. -/
theorem get_mk_range (r c : Nat) (f : Nat → Nat → ℚ) {i j : Nat}
    (hi : i < r) (hj : j < c) :
    (Matrix.mk r c ((List.range r).map (fun i =>
      (List.range c).map (fun j => f i j)))).get i j = f i j := by
  unfold Matrix.get
  have h1 : ((List.range r).map (fun i =>
      (List.range c).map (fun j => f i j))).getD i []
      = (List.range c).map (fun j => f i j) := by
    rw [List.getD_eq_getElem?_getD, List.getElem?_eq_getElem (by simpa using hi)]
    simp
  rw [h1, List.getD_eq_getElem?_getD, List.getElem?_eq_getElem (by simpa using hj)]
  simp

/-- Embeds `compute_mean`: `mean[j] = (sum_i mat->data[i][j]) / mat->rows`. -/
def compute_mean (mat : Matrix) : List ℚ :=
  (List.range mat.cols).map (fun j =>
    ((List.range mat.rows).map (fun i => mat.get i j)).sum / (mat.rows : ℚ))

/-- Embeds `center_data`: in-place `mat->data[i][j] -= mean[j]` for all i, j,
modelled by returning the updated matrix.  (In every call site `mean` has at
least `mat.cols` entries, so the `zipWith` covers exactly columns 0..cols-1.) -/
def center_data (mat : Matrix) (mean : List ℚ) : Matrix :=
  ⟨mat.rows, mat.cols, mat.data.map (fun row => List.zipWith (fun a b => a - b) row mean)⟩

/-- Embeds `compute_covariance`: transpose, multiply, then divide every entry
by `(mat->rows > 1) ? mat->rows - 1 : 1`. -/
def compute_covariance (mat : Matrix) : Option Matrix :=
  match matrix_transpose mat with
  | none => none
  | some xT =>
    match matrix_multiply xT mat with
    | none => none
    | some cov =>
      let divisor : ℚ := if 1 < mat.rows then ((mat.rows : ℚ) - 1) else 1
      some ⟨cov.rows, cov.cols, cov.data.map (fun row => row.map (fun x => x / divisor))⟩

/-- The constant 1e-10 used both as the default tolerance and as the
normalization guard in `vector_normalize`. -/
def ten_neg10 : ℚ := 1 / 10000000000

/-- Embeds `vector_norm(vec, size)`: square root of the sum of squares of the
first `size` entries. -/
def vector_norm (sqrt : ℚ → ℚ) (v : List ℚ) (size : Nat) : ℚ :=
  sqrt (((List.range size).map (fun i => v.getD i 0 * v.getD i 0)).sum)

/-- Embeds `vector_normalize(vec, size)`: divide each entry by the norm when
the norm exceeds 1e-10, otherwise leave the vector unchanged. -/
def vector_normalize (sqrt : ℚ → ℚ) (v : List ℚ) (size : Nat) : List ℚ :=
  let norm := vector_norm sqrt v size
  if ten_neg10 < norm then (List.range size).map (fun i => v.getD i 0 / norm) else v

/-- The `v_new = A * v` loop inside `compute_eigen`:
`v_new[i] = sum_{j<n} A->data[i][j] * v[j]`. -/
def mat_vec (A : Matrix) (v : List ℚ) (n : Nat) : List ℚ :=
  (List.range n).map (fun i =>
    ((List.range n).map (fun j => A.get i j * v.getD j 0)).sum)

/-- The Rayleigh-quotient loop inside `compute_eigen`:
`lambda_new = sum_{i<n} v_new[i] * v[i]` (pre-normalization `v_new` against
the previous iterate `v`). -/
def ray_quot (w v : List ℚ) (n : Nat) : ℚ :=
  ((List.range n).map (fun i => w.getD i 0 * v.getD i 0)).sum

/-- The inner power-iteration loop of `compute_eigen` for one eigenpair:
each step computes `v_new = A*v`, the Rayleigh quotient against the previous
iterate, normalizes `v_new`, and stops early when
`|lambda_new - lambda| < tolerance`; when the fuel (`max_iterations`) runs out
the last computed pair is returned as is. -/
def power_iter (sqrt : ℚ → ℚ) (A : Matrix) (n : Nat) (tolerance : ℚ) :
    Nat → ℚ → List ℚ → ℚ × List ℚ
  | 0, lam, v => (lam, v)
  | fuel+1, lam, v =>
    let w := mat_vec A v n
    let lam2 := ray_quot w v n
    let w2 := vector_normalize sqrt w n
    if |lam2 - lam| < tolerance then (lam2, w2)
    else power_iter sqrt A n tolerance fuel lam2 w2

/-- The deflation step of `compute_eigen`:
`A->data[i][j] -= lambda * v[i] * v[j]` for all i, j < n (in `compute_eigen`
the working matrix `A` is exactly n×n, so the loops cover every entry). -/
def deflate (n : Nat) (A : Matrix) (lam : ℚ) (v : List ℚ) : Matrix :=
  ⟨n, n, (List.range n).map (fun i =>
    (List.range n).map (fun j => A.get i j - lam * v.getD i 0 * v.getD j 0))⟩

/-- The store step of `compute_eigen`:
`eigenvectors->data[i][k] = v[i]` for i < n. -/
def set_column (m : Matrix) (k : Nat) (v : List ℚ) (n : Nat) : Matrix :=
  ⟨m.rows, m.cols, List.zipWith (fun i row => if i < n then row.set k (v.getD i 0) else row)
    (List.range m.data.length) m.data⟩

/-- The outer `for (k = 0; k < n; k++)` loop of `compute_eigen`, with the
deflated matrix `A`, the eigenvalue buffer and the eigenvector matrix threaded
as explicit state; `fuel` counts the remaining values of `k`.  Each round
starts power iteration from the deterministic seed vector whose every entry is
`1.0 / sqrt(n)`, stores the resulting pair at index `k`, and deflates `A`. -/
def eigen_go (sqrt : ℚ → ℚ) (n maxIt : Nat) (tolerance : ℚ) :
    Nat → Nat → Matrix → List ℚ → Matrix → List ℚ × Matrix
  | 0, _, _, evs, evec => (evs, evec)
  | fuel+1, k, A, evs, evec =>
    let seed := List.replicate n (1 / sqrt (n : ℚ))
    let p := power_iter sqrt A n tolerance maxIt 0 seed
    eigen_go sqrt n maxIt tolerance fuel (k+1)
      (deflate n A p.1 p.2) (evs.set k p.1) (set_column evec k p.2 n)

/-- Embeds `compute_eigen`: allocates an n×n working copy of the covariance
matrix (the only hard failure, -1, is when that allocation fails), runs the
deflating power iteration for k = 0..n-1, and returns the post-state of the
three caller buffers `(cov_matrix, eigenvalues, eigenvectors)`; the input
covariance matrix is only ever read, so it is passed through unchanged. -/
def compute_eigen (sqrt : ℚ → ℚ) (cov_matrix : Matrix) (eigenvalues : List ℚ)
    (eigenvectors : Matrix) (max_iterations : Nat) (tolerance : ℚ) :
    Option (Matrix × List ℚ × Matrix) :=
  match matrix_create cov_matrix.rows cov_matrix.rows with
  | none => none
  | some A0 =>
    let A := matrix_copy A0 cov_matrix
    let r := eigen_go sqrt cov_matrix.rows max_iterations tolerance
      cov_matrix.rows 0 A eigenvalues eigenvectors
    some (cov_matrix, r.1, r.2)

/-- Spec-side description of the eigen engine (section 4.3 of the spec): for
k = 0..C-1 in order, eigenpair k is obtained by power iteration on the current
deflated matrix starting from the deterministic seed with every entry
1/sqrt(C), and the matrix is deflated by the found pair before the next k. -/
def spec_eigen_pairs (sqrt : ℚ → ℚ) (n maxIt : Nat) (tolerance : ℚ) :
    Nat → Matrix → List (ℚ × List ℚ)
  | 0, _ => []
  | k+1, A =>
    let p := power_iter sqrt A n tolerance maxIt 0 (List.replicate n (1 / sqrt (n : ℚ)))
    p :: spec_eigen_pairs sqrt n maxIt tolerance k (deflate n A p.1 p.2)

/-- Column k of a matrix, read as a vector of length `rows`. -/
def get_column (mat : Matrix) (k : Nat) : List ℚ :=
  (List.range mat.rows).map (fun i => mat.get i k)

/-- All columns of a matrix, in order. -/
def columns_of (mat : Matrix) : List (List ℚ) :=
  (List.range mat.cols).map (fun j => get_column mat j)

/-- Rebuild a matrix with the given number of rows from a list of columns. -/
def from_columns (rows : Nat) (cs : List (List ℚ)) : Matrix :=
  ⟨rows, cs.length, (List.range rows).map (fun i => cs.map (fun c => c.getD i 0))⟩

/-
  `sort_eigen(eigenvalues, eigenvectors, n)` keeps `eigenvalues[j]` and column
  j of `eigenvectors` in lockstep: both inner-loop swaps fire under the same
  condition `eigenvalues[j] < eigenvalues[j+1]`.  The embedding therefore
  represents the sorted state as the list of (eigenvalue, eigenvector-column)
  pairs and swaps whole pairs.  `sort_pass fuel` is the inner
  `for (j = 0; j < n-i-1; j++)` loop (`fuel` = remaining comparisons, the list
  head = the element currently at index j); `sort_go` is the outer loop.
-/

/-- One inner bubble pass of `sort_eigen` with `fuel` comparisons left:
if `eigenvalues[j] < eigenvalues[j+1]`, swap the adjacent pairs. -/
def sort_pass : Nat → List (ℚ × List ℚ) → List (ℚ × List ℚ)
  | 0, l => l
  | _+1, [] => []
  | _+1, [x] => [x]
  | fuel+1, x :: y :: rest =>
    if x.1 < y.1 then y :: sort_pass fuel (x :: rest)
    else x :: sort_pass fuel (y :: rest)

/-- The outer `for (i = 0; i < n-1; i++)` loop of `sort_eigen`: pass i
performs `n-1-i` comparisons, so the passes use fuel m, m-1, ..., 1. -/
def sort_go : Nat → List (ℚ × List ℚ) → List (ℚ × List ℚ)
  | 0, l => l
  | m+1, l => sort_go m (sort_pass (m+1) l)

/-- Embeds `sort_eigen` on the list of (eigenvalue, eigenvector-column)
pairs: bubble sort by eigenvalue descending with synchronized pair swaps. -/
def sort_eigen (l : List (ℚ × List ℚ)) : List (ℚ × List ℚ) :=
  sort_go (l.length - 1) l

/-- Embeds `project_data`: NULL when `k <= 0` or when the allocation of the
k-column slice fails; otherwise multiplies `data` by the matrix made of the
first k columns of `eigenvectors`. -/
def project_data (data eigenvectors : Matrix) (k : Int) : Option Matrix :=
  if k ≤ 0 then none
  else match matrix_create eigenvectors.rows k.toNat with
  | none => none
  | some _ =>
    let components : Matrix := ⟨eigenvectors.rows, k.toNat,
      (List.range eigenvectors.rows).map (fun i =>
        (List.range k.toNat).map (fun j => eigenvectors.get i j))⟩
    matrix_multiply data components

/-- Embeds the C `PCAModel` struct.  (`explained_variance` is the struct's
explained-variance-ratio field.) -/
structure PCAModel where
  n_components : Int
  mean : List ℚ
  eigenvalues : List ℚ
  eigenvectors : Matrix
  explained_variance : ℚ
deriving DecidableEq

/-- Embeds `pca_fit`: rejects `n_components <= 0 || n_components > data->cols`
(InvalidComponentCount), then computes the mean, centers `data` in place
(returned as the second component: the caller's matrix is mutated), computes
the covariance, runs the eigen engine with max_iterations = 1000 and
tolerance = 1e-10, sorts the eigenpairs descending, and computes the
explained-variance ratio of the top `n_components` eigenvalues. -/
def pca_fit (sqrt : ℚ → ℚ) (data : Matrix) (n_components : Int) :
    Option (PCAModel × Matrix) :=
  if n_components ≤ 0 ∨ (data.cols : Int) < n_components then none
  else
    let mean := compute_mean data
    let data1 := center_data data mean
    match compute_covariance data1 with
    | none => none
    | some cov =>
      match matrix_create data1.cols data1.cols with
      | none => none
      | some evec0 =>
        match compute_eigen sqrt cov (List.replicate data1.cols 0) evec0 1000 ten_neg10 with
        | none => none
        | some r =>
          let pairs := sort_eigen (r.2.1.zip (columns_of r.2.2))
          let sortedEvs := pairs.map (fun p => p.1)
          let total := sortedEvs.sum
          let explained := (sortedEvs.take n_components.toNat).sum
          some ({ n_components := n_components, mean := mean,
                  eigenvalues := sortedEvs,
                  eigenvectors := from_columns data1.cols (pairs.map (fun p => p.2)),
                  explained_variance := explained / total }, data1)

/-- Embeds `pca_transform`: centers the caller's matrix in place using the
model's stored mean (the mutated matrix is returned as the second component),
then projects onto the model's first `n_components` eigenvector columns. -/
def pca_transform (model : PCAModel) (data : Matrix) : Option Matrix × Matrix :=
  let data1 := center_data data model.mean
  (project_data data1 model.eigenvectors model.n_components, data1)

/-
  Shared helper lemmas (not tied to a single claim).
-/

/-- Creation succeeds exactly on positive dimensions. -/
theorem matrix_create_pos {r c : Nat} (hr : 0 < r) (hc : 0 < c) :
    matrix_create r c = some ⟨r, c, List.replicate r (List.replicate c 0)⟩ := by
  unfold matrix_create
  rw [if_neg]
  push_neg
  exact ⟨Nat.pos_iff_ne_zero.mp hr, Nat.pos_iff_ne_zero.mp hc⟩

/-- Explicit form of a successful transpose. -/
theorem matrix_transpose_eq (M : Matrix) (hr : 0 < M.rows) (hc : 0 < M.cols) :
    matrix_transpose M = some ⟨M.cols, M.rows, (List.range M.cols).map (fun j =>
      (List.range M.rows).map (fun i => M.get i j))⟩ := by
  unfold matrix_transpose
  rw [matrix_create_pos hc hr]

/-- Explicit form of a successful multiplication. -/
theorem matrix_multiply_eq (A B : Matrix) (h : A.cols = B.rows)
    (hr : 0 < A.rows) (hc : 0 < B.cols) :
    matrix_multiply A B = some ⟨A.rows, B.cols, (List.range A.rows).map (fun i =>
      (List.range B.cols).map (fun j =>
        ((List.range A.cols).map (fun k => A.get i k * B.get k j)).sum))⟩ := by
  unfold matrix_multiply
  rw [if_neg (by simpa using h), matrix_create_pos hr hc]

/-- A matrix built from nested range maps is well formed. -/
theorem mk_range_WF (r c : Nat) (f : Nat → Nat → ℚ) (hr : 0 < r) (hc : 0 < c) :
    (Matrix.mk r c ((List.range r).map (fun i =>
      (List.range c).map (fun j => f i j)))).WF := by
  refine ⟨hr, hc, by simp, ?_⟩
  intro row hrow
  simp only [List.mem_map, List.mem_range] at hrow
  obtain ⟨i, _, rfl⟩ := hrow
  simp

/-- Element access through the concrete row lists. -/
theorem get_eq_getElem (m : Matrix) {i j : Nat} (hi : i < m.data.length)
    (hj : j < (m.data[i]).length) : m.get i j = (m.data[i])[j] := by
  unfold Matrix.get
  rw [List.getD_eq_getElem _ _ hi, List.getD_eq_getElem _ _ hj]

/-- Entry (i, j) of a centered matrix is the original entry minus `mean[j]`,
whenever `mean` covers all columns. -/
theorem center_data_get (m : Matrix) (mean : List ℚ)
    (hlen : m.data.length = m.rows) (hrow : ∀ row ∈ m.data, row.length = m.cols)
    (hmean : m.cols ≤ mean.length) {i j : Nat} (hi : i < m.rows) (hj : j < m.cols) :
    (center_data m mean).get i j = m.get i j - mean.getD j 0 := by
  have hi' : i < m.data.length := by rw [hlen]; exact hi
  have hrowi : (m.data[i]).length = m.cols := hrow _ (List.getElem_mem hi')
  have hz : j < (List.zipWith (fun a b => a - b) (m.data[i]) mean).length := by
    rw [List.length_zipWith]
    omega
  have houter : ((m.data.map (fun row => List.zipWith (fun a b => a - b) row mean)).getD i [])
      = List.zipWith (fun a b => a - b) (m.data[i]) mean := by
    rw [List.getD_eq_getElem _ _ (by simpa using hi')]
    simp
  have h1 : (center_data m mean).get i j
      = (List.zipWith (fun a b => a - b) (m.data[i]) mean)[j] := by
    unfold center_data Matrix.get
    simp only
    rw [houter, List.getD_eq_getElem _ _ hz]
  rw [h1, List.getElem_zipWith, get_eq_getElem m hi' (by omega),
    List.getD_eq_getElem _ _ (by omega)]

/-- Two well-formed matrices with the same shape and the same entries are
equal. -/
theorem Matrix.eq_of_get {a b : Matrix} (ha : a.WF) (hb : b.WF)
    (hr : a.rows = b.rows) (hc : a.cols = b.cols)
    (h : ∀ i j, i < a.rows → j < a.cols → a.get i j = b.get i j) : a = b := by
  obtain ⟨apos, acpos, alen, arow⟩ := ha
  obtain ⟨bpos, bcpos, blen, brow⟩ := hb
  obtain ⟨ar, ac, ad⟩ := a
  obtain ⟨br, bc, bd⟩ := b
  simp only at hr hc alen blen arow brow h ⊢
  subst hr hc
  simp only [Matrix.mk.injEq]
  refine ⟨trivial, trivial, ?_⟩
  have hdl : ad.length = bd.length := by rw [alen, blen]
  refine List.ext_getElem hdl ?_
  intro i hia hib
  have hla : (ad[i]).length = ac := arow _ (List.getElem_mem hia)
  have hlb : (bd[i]).length = ac := brow _ (List.getElem_mem hib)
  refine List.ext_getElem (by rw [hla, hlb]) ?_
  intro j hja hjb
  have := h i j (by omega) (by omega)
  rwa [get_eq_getElem ⟨ar, ac, ad⟩ hia hja, get_eq_getElem ⟨ar, ac, bd⟩ hib hjb] at this

/-- Reading index j of a list built by mapping over a range. -/
theorem getD_range_map (c : Nat) (f : Nat → ℚ) {j : Nat} (hj : j < c) :
    ((List.range c).map f).getD j 0 = f j := by
  rw [List.getD_eq_getElem _ _ (by simpa using hj)]
  simp

/-- On positive dimensions the covariance computation succeeds and is
M.cols × M.cols. -/
theorem compute_covariance_shape (M : Matrix) (hr : 0 < M.rows) (hc : 0 < M.cols) :
    ∃ cov, compute_covariance M = some cov ∧ cov.rows = M.cols ∧ cov.cols = M.cols := by
  set XT : Matrix := ⟨M.cols, M.rows, (List.range M.cols).map (fun j =>
    (List.range M.rows).map (fun i => M.get i j))⟩ with hXT
  unfold compute_covariance
  rw [matrix_transpose_eq M hr hc, ← hXT]
  simp only [matrix_multiply_eq XT M rfl hc hc]
  exact ⟨_, rfl, rfl, rfl⟩

/-- `compute_eigen` succeeds on any matrix with a positive row count: the
working-copy allocation is the only failure point. -/
theorem compute_eigen_eq (sqrt : ℚ → ℚ) (cov : Matrix) (evs : List ℚ) (evec : Matrix)
    (maxIt : Nat) (tol : ℚ) (h : 0 < cov.rows) :
    compute_eigen sqrt cov evs evec maxIt tol
      = some (cov, eigen_go sqrt cov.rows maxIt tol cov.rows 0
          (matrix_copy ⟨cov.rows, cov.rows,
            List.replicate cov.rows (List.replicate cov.rows 0)⟩ cov) evs evec) := by
  unfold compute_eigen
  rw [matrix_create_pos h h]

/-
  Claim theorems.
-/

/-- Claim C7: `matrix_multiply` fails exactly on a column/row mismatch, and on
matching shapes returns the product matrix of shape A.rows × B.cols with
`C[i][j] = sum_k A[i][k] * B[k][j]`.  (The embedding is a pure function of A
and B, reflecting that the C code only reads its two const inputs.) -/
theorem matrix_multiply_spec (A B : Matrix) (hA : A.WF) (hB : B.WF) :
    (A.cols ≠ B.rows → matrix_multiply A B = none) ∧
    (A.cols = B.rows → ∃ C, matrix_multiply A B = some C ∧
      C.rows = A.rows ∧ C.cols = B.cols ∧ C.WF ∧
      ∀ i j, i < A.rows → j < B.cols →
        C.get i j = ((List.range A.cols).map (fun k => A.get i k * B.get k j)).sum) := by
  constructor
  · intro h
    unfold matrix_multiply
    rw [if_pos (by simpa using h)]
  · intro h
    refine ⟨_, matrix_multiply_eq A B h hA.1 hB.2.1, rfl, rfl,
      mk_range_WF _ _ _ hA.1 hB.2.1, ?_⟩
    intro i j hi hj
    exact get_mk_range A.rows B.cols _ hi hj

/-- Claim C5: on any well-formed (already centered) matrix, the covariance is
the C×C matrix (Mᵀ·M) / max(R−1, 1) — entry (i,j) is
`(sum_k M[k][i]*M[k][j]) / max(R-1, 1)` — it is symmetric, and the R = 1 case
succeeds because the divisor is clamped to 1. -/
theorem compute_covariance_spec (M : Matrix) (hM : M.WF) :
    ∃ cov, compute_covariance M = some cov ∧
      cov.rows = M.cols ∧ cov.cols = M.cols ∧
      (∀ i j, i < M.cols → j < M.cols →
        cov.get i j = ((List.range M.rows).map (fun k => M.get k i * M.get k j)).sum
          / (max ((M.rows : ℚ) - 1) 1)) ∧
      (∀ i j, i < M.cols → j < M.cols → cov.get i j = cov.get j i) := by
  obtain ⟨hr, hc, hlen, hrow⟩ := hM
  have hdiv : (if 1 < M.rows then ((M.rows : ℚ) - 1) else 1) = max ((M.rows : ℚ) - 1) 1 := by
    by_cases h : 1 < M.rows
    · rw [if_pos h, max_eq_left]
      have : (2 : ℚ) ≤ (M.rows : ℚ) := by exact_mod_cast h
      linarith
    · rw [if_neg h, max_eq_right]
      have : (M.rows : ℚ) ≤ 1 := by exact_mod_cast Nat.not_lt.mp h
      linarith
  set XT : Matrix := ⟨M.cols, M.rows, (List.range M.cols).map (fun j =>
    (List.range M.rows).map (fun i => M.get i j))⟩ with hXT
  have hXTget : ∀ a b, a < M.cols → b < M.rows → XT.get a b = M.get b a := by
    intro a b ha hb
    exact get_mk_range M.cols M.rows (fun a b => M.get b a) ha hb
  have hmul : matrix_multiply XT M = some ⟨M.cols, M.cols, (List.range M.cols).map (fun i =>
      (List.range M.cols).map (fun j =>
        ((List.range M.rows).map (fun k => XT.get i k * M.get k j)).sum))⟩ :=
    matrix_multiply_eq XT M rfl hc hc
  have hcov : compute_covariance M = some ⟨M.cols, M.cols, (List.range M.cols).map (fun i =>
      (List.range M.cols).map (fun j =>
        ((List.range M.rows).map (fun k => XT.get i k * M.get k j)).sum
          / (max ((M.rows : ℚ) - 1) 1)))⟩ := by
    unfold compute_covariance
    rw [matrix_transpose_eq M hr hc, ← hXT]
    simp only [hmul, List.map_map, hdiv, Function.comp_def]
  refine ⟨_, hcov, rfl, rfl, ?_, ?_⟩
  · intro i j hi hj
    rw [get_mk_range M.cols M.cols _ hi hj]
    refine congrArg (fun q => q / (max ((M.rows : ℚ) - 1) 1)) ?_
    refine congrArg List.sum (List.map_congr_left ?_)
    intro k hk
    rw [hXTget i k hi (List.mem_range.mp hk)]
  · intro i j hi hj
    rw [get_mk_range M.cols M.cols _ hi hj, get_mk_range M.cols M.cols _ hj hi]
    refine congrArg (fun q => q / (max ((M.rows : ℚ) - 1) 1)) ?_
    refine congrArg List.sum (List.map_congr_left ?_)
    intro k hk
    rw [hXTget i k hi (List.mem_range.mp hk), hXTget j k hj (List.mem_range.mp hk),
      mul_comm]

/-- Concrete instance of the multiplication claim: [1 2] · [3; 4] = [11]. -/
theorem matrix_multiply_spec_witness :
    (Matrix.mk 1 2 [[1, 2]]).WF ∧ (Matrix.mk 2 1 [[3], [4]]).WF ∧
    ∃ C, matrix_multiply (Matrix.mk 1 2 [[1, 2]]) (Matrix.mk 2 1 [[3], [4]]) = some C ∧
      C.rows = 1 ∧ C.cols = 1 ∧ C.WF ∧
      ∀ i j, i < 1 → j < 1 →
        C.get i j = ((List.range 2).map (fun k =>
          (Matrix.mk 1 2 [[1, 2]]).get i k * (Matrix.mk 2 1 [[3], [4]]).get k j)).sum :=
  ⟨by decide, by decide, (matrix_multiply_spec _ _ (by decide) (by decide)).2 rfl⟩

/-- Concrete instance of the covariance claim at the degenerate single-sample
shape 1×2, where the divisor is clamped to 1. -/
theorem compute_covariance_spec_witness :
    (Matrix.mk 1 2 [[1, 2]]).WF ∧
    ∃ cov, compute_covariance (Matrix.mk 1 2 [[1, 2]]) = some cov ∧
      cov.rows = 2 ∧ cov.cols = 2 ∧
      (∀ i j, i < 2 → j < 2 →
        cov.get i j = ((List.range 1).map (fun k =>
          (Matrix.mk 1 2 [[1, 2]]).get k i * (Matrix.mk 1 2 [[1, 2]]).get k j)).sum
            / (max (((1 : Nat) : ℚ) - 1) 1)) ∧
      (∀ i j, i < 2 → j < 2 → cov.get i j = cov.get j i) :=
  ⟨by decide, compute_covariance_spec _ (by decide)⟩

/-- Claim C3: on a fitted model (C×C eigenvector matrix, mean of length C,
1 ≤ n_components ≤ C), `pca_transform` fails exactly when `data.cols` differs
from C, and on a match returns a matrix of shape data.rows × n_components. -/
theorem pca_transform_dim_check (model : PCAModel) (data : Matrix) (hdata : data.WF)
    (hk : 0 < model.n_components)
    (_hkC : model.n_components ≤ (model.eigenvectors.cols : Int))
    (_hsq : model.eigenvectors.rows = model.eigenvectors.cols)
    (hCpos : 0 < model.eigenvectors.rows)
    (_hmean : model.mean.length = model.eigenvectors.rows) :
    (data.cols ≠ model.eigenvectors.rows → (pca_transform model data).1 = none) ∧
    (data.cols = model.eigenvectors.rows →
      ∃ p, (pca_transform model data).1 = some p ∧
        p.rows = data.rows ∧ p.cols = model.n_components.toNat) := by
  have hkt : 0 < model.n_components.toNat := by omega
  have hstep : (pca_transform model data).1
      = matrix_multiply (center_data data model.mean)
          ⟨model.eigenvectors.rows, model.n_components.toNat,
            (List.range model.eigenvectors.rows).map (fun i =>
              (List.range model.n_components.toNat).map (fun j =>
                model.eigenvectors.get i j))⟩ := by
    show project_data (center_data data model.mean) model.eigenvectors model.n_components = _
    unfold project_data
    rw [if_neg (by omega), matrix_create_pos hCpos hkt]
  constructor
  · intro hne
    rw [hstep]
    unfold matrix_multiply
    rw [if_pos]
    simpa using hne
  · intro heq
    rw [hstep]
    refine ⟨_, matrix_multiply_eq _ _ (by simpa using heq) (by exact hdata.1) hkt, rfl, rfl⟩

/-- Concrete instance of the transform shape-contract claim: a 2×2 identity
model applied to a 2×2 data matrix yields a 2×1 projection. -/
theorem pca_transform_dim_check_witness :
    (Matrix.mk 2 2 [[1, 2], [3, 4]]).WF ∧
    ((Matrix.mk 2 2 [[1, 2], [3, 4]]).cols
        ≠ (PCAModel.mk 1 [1, 1] [2, 1] (Matrix.mk 2 2 [[1, 0], [0, 1]]) 1).eigenvectors.rows →
      (pca_transform (PCAModel.mk 1 [1, 1] [2, 1] (Matrix.mk 2 2 [[1, 0], [0, 1]]) 1)
        (Matrix.mk 2 2 [[1, 2], [3, 4]])).1 = none) ∧
    ((Matrix.mk 2 2 [[1, 2], [3, 4]]).cols
        = (PCAModel.mk 1 [1, 1] [2, 1] (Matrix.mk 2 2 [[1, 0], [0, 1]]) 1).eigenvectors.rows →
      ∃ p, (pca_transform (PCAModel.mk 1 [1, 1] [2, 1] (Matrix.mk 2 2 [[1, 0], [0, 1]]) 1)
        (Matrix.mk 2 2 [[1, 2], [3, 4]])).1 = some p ∧
        p.rows = 2 ∧ p.cols = 1) :=
  ⟨by decide, pca_transform_dim_check _ _ (by decide) (by decide) (by decide) (by decide)
    (by decide) (by decide)⟩

/-- Claim C8: `pca_transform` is a deterministic function of the model and the
element-wise content of its input: on two equal-shaped, element-wise-equal
input matrices it produces identical results (there is no hidden mutable
engine state in the embedding, which is a pure function). -/
theorem pca_transform_deterministic (model : PCAModel) (d1 d2 : Matrix)
    (h1 : d1.WF) (h2 : d2.WF) (hr : d1.rows = d2.rows) (hc : d1.cols = d2.cols)
    (hget : ∀ i j, i < d1.rows → j < d1.cols → d1.get i j = d2.get i j) :
    pca_transform model d1 = pca_transform model d2 := by
  rw [Matrix.eq_of_get h1 h2 hr hc hget]

/-- Concrete instance of the determinism claim on two fresh copies of the same
1×2 matrix. -/
theorem pca_transform_deterministic_witness :
    (Matrix.mk 1 2 [[1, 2]]).WF ∧
    pca_transform (PCAModel.mk 1 [1, 1] [2, 1] (Matrix.mk 2 2 [[1, 0], [0, 1]]) 1)
        (Matrix.mk 1 2 [[1, 2]])
      = pca_transform (PCAModel.mk 1 [1, 1] [2, 1] (Matrix.mk 2 2 [[1, 0], [0, 1]]) 1)
        (Matrix.mk 1 2 [[1, 2]]) :=
  ⟨by decide, pca_transform_deterministic _ _ _ (by decide) (by decide) rfl rfl
    (fun i j _ _ => rfl)⟩

/-- Claim C9: `pca_transform` is not atomic on a dimension mismatch: with
`data.cols` smaller than the fitted feature count C, the call fails (returns
none) but the caller's matrix has already been centered in place, each row
having the first `data.cols` entries of the stored mean subtracted. -/
theorem pca_transform_not_atomic (model : PCAModel) (data : Matrix) (hdata : data.WF)
    (hk : 0 < model.n_components)
    (hC : data.cols < model.eigenvectors.rows)
    (hmean : model.mean.length = model.eigenvectors.rows) :
    (pca_transform model data).1 = none ∧
    (pca_transform model data).2.rows = data.rows ∧
    (pca_transform model data).2.cols = data.cols ∧
    ∀ i j, i < data.rows → j < data.cols →
      (pca_transform model data).2.get i j = data.get i j - model.mean.getD j 0 := by
  have hkt : 0 < model.n_components.toNat := by omega
  refine ⟨?_, rfl, rfl, ?_⟩
  · show project_data (center_data data model.mean) model.eigenvectors model.n_components = none
    unfold project_data
    rw [if_neg (by omega), matrix_create_pos (by omega) hkt]
    unfold matrix_multiply
    rw [if_pos]
    simp only [ne_eq]
    show ¬((center_data data model.mean).cols = model.eigenvectors.rows)
    have hcc : (center_data data model.mean).cols = data.cols := rfl
    omega
  · intro i j hi hj
    exact center_data_get data model.mean hdata.2.2.1 hdata.2.2.2 (by omega) hi hj

/-- Concrete instance of the non-atomicity claim: a 2×1 matrix given to a
model fitted on 2 features is centered even though the call fails. -/
theorem pca_transform_not_atomic_witness :
    (Matrix.mk 2 1 [[1], [3]]).WF ∧
    (pca_transform (PCAModel.mk 1 [1, 1] [2, 1] (Matrix.mk 2 2 [[1, 0], [0, 1]]) 1)
      (Matrix.mk 2 1 [[1], [3]])).1 = none ∧
    (pca_transform (PCAModel.mk 1 [1, 1] [2, 1] (Matrix.mk 2 2 [[1, 0], [0, 1]]) 1)
      (Matrix.mk 2 1 [[1], [3]])).2.rows = 2 ∧
    (pca_transform (PCAModel.mk 1 [1, 1] [2, 1] (Matrix.mk 2 2 [[1, 0], [0, 1]]) 1)
      (Matrix.mk 2 1 [[1], [3]])).2.cols = 1 ∧
    ∀ i j, i < 2 → j < 1 →
      (pca_transform (PCAModel.mk 1 [1, 1] [2, 1] (Matrix.mk 2 2 [[1, 0], [0, 1]]) 1)
        (Matrix.mk 2 1 [[1], [3]])).2.get i j
        = (Matrix.mk 2 1 [[1], [3]]).get i j - [(1 : ℚ), 1].getD j 0 :=
  ⟨by decide, pca_transform_not_atomic _ _ (by decide) (by decide) (by decide) (by decide)⟩

/-- Claim C4: `pca_fit` rejects exactly the component counts outside
[1, data.cols] — zero, negative, and larger-than-feature-count values all
fail, and every in-range count passes the validation and completes. -/
theorem pca_fit_component_count (sqrt : ℚ → ℚ) (data : Matrix) (n_components : Int)
    (hdata : data.WF) :
    ((n_components ≤ 0 ∨ (data.cols : Int) < n_components) →
      pca_fit sqrt data n_components = none) ∧
    (1 ≤ n_components → n_components ≤ (data.cols : Int) →
      ∃ r, pca_fit sqrt data n_components = some r) := by
  constructor
  · intro h
    unfold pca_fit
    rw [if_pos h]
  · intro h1 h2
    obtain ⟨cov, hcov, hcr, hcc⟩ := compute_covariance_shape
      (center_data data (compute_mean data)) hdata.1 hdata.2.1
    have hcovr : 0 < cov.rows := by rw [hcr]; exact hdata.2.1
    unfold pca_fit
    rw [if_neg (by omega)]
    have hcols : (center_data data (compute_mean data)).cols = data.cols := rfl
    simp only [hcov, hcols, matrix_create_pos hdata.2.1 hdata.2.1,
      compute_eigen_eq sqrt cov (List.replicate data.cols 0)
        ⟨data.cols, data.cols, List.replicate data.cols (List.replicate data.cols 0)⟩
        1000 ten_neg10 hcovr]
    exact ⟨_, rfl⟩

/-- Concrete instance of the component-count claim at a 2×1 data matrix:
n_components = 0, -1 and 2 are rejected, n_components = 1 succeeds. -/
theorem pca_fit_component_count_witness :
    (Matrix.mk 2 1 [[3], [3]]).WF ∧
    pca_fit (fun _ => 1) (Matrix.mk 2 1 [[3], [3]]) 0 = none ∧
    pca_fit (fun _ => 1) (Matrix.mk 2 1 [[3], [3]]) (-1) = none ∧
    pca_fit (fun _ => 1) (Matrix.mk 2 1 [[3], [3]]) 2 = none ∧
    ∃ r, pca_fit (fun _ => 1) (Matrix.mk 2 1 [[3], [3]]) 1 = some r :=
  ⟨by decide,
   (pca_fit_component_count (fun _ => 1) _ 0 (by decide)).1 (Or.inl (by decide)),
   (pca_fit_component_count (fun _ => 1) _ (-1) (by decide)).1 (Or.inl (by decide)),
   (pca_fit_component_count (fun _ => 1) _ 2 (by decide)).1 (Or.inr (by decide)),
   (pca_fit_component_count (fun _ => 1) _ 1 (by decide)).2 (by decide) (by decide)⟩

/-- Claim C6: a valid `pca_fit` call returns the caller's matrix mutated
exactly by centering — entry (i, j) becomes the original entry minus the
column-j mean of the original data — with the dimensions unchanged. -/
theorem pca_fit_centers_in_place (sqrt : ℚ → ℚ) (data : Matrix) (n_components : Int)
    (hdata : data.WF) (h1 : 1 ≤ n_components) (h2 : n_components ≤ (data.cols : Int)) :
    ∃ model d2, pca_fit sqrt data n_components = some (model, d2) ∧
      d2.rows = data.rows ∧ d2.cols = data.cols ∧
      ∀ i j, i < data.rows → j < data.cols →
        d2.get i j = data.get i j
          - ((List.range data.rows).map (fun r => data.get r j)).sum / (data.rows : ℚ) := by
  obtain ⟨cov, hcov, hcr, hcc⟩ := compute_covariance_shape
    (center_data data (compute_mean data)) hdata.1 hdata.2.1
  have hcovr : 0 < cov.rows := by rw [hcr]; exact hdata.2.1
  have hmeanlen : data.cols ≤ (compute_mean data).length := by
    unfold compute_mean
    simp
  have hcenter : ∀ i j, i < data.rows → j < data.cols →
      (center_data data (compute_mean data)).get i j = data.get i j
        - ((List.range data.rows).map (fun r => data.get r j)).sum / (data.rows : ℚ) := by
    intro i j hi hj
    rw [center_data_get data (compute_mean data) hdata.2.2.1 hdata.2.2.2 hmeanlen hi hj]
    unfold compute_mean
    rw [getD_range_map data.cols _ hj]
  unfold pca_fit
  rw [if_neg (by omega)]
  have hcols : (center_data data (compute_mean data)).cols = data.cols := rfl
  simp only [hcov, hcols, matrix_create_pos hdata.2.1 hdata.2.1,
    compute_eigen_eq sqrt cov (List.replicate data.cols 0)
      ⟨data.cols, data.cols, List.replicate data.cols (List.replicate data.cols 0)⟩
      1000 ten_neg10 hcovr]
  exact ⟨_, _, rfl, rfl, rfl, hcenter⟩

/-- Concrete instance of the centering claim: fitting on the 2×1 matrix
[[1], [3]] mutates the caller's matrix into [[-1], [1]] (mean 2 removed). -/
theorem pca_fit_centers_in_place_witness :
    (Matrix.mk 2 1 [[1], [3]]).WF ∧
    ∃ model d2,
      pca_fit (fun _ => 0) (Matrix.mk 2 1 [[1], [3]]) 1 = some (model, d2) ∧
      d2.rows = 2 ∧ d2.cols = 1 ∧
      ∀ i j, i < 2 → j < 1 →
        d2.get i j = (Matrix.mk 2 1 [[1], [3]]).get i j
          - ((List.range 2).map (fun r => (Matrix.mk 2 1 [[1], [3]]).get r j)).sum
            / ((2 : Nat) : ℚ) :=
  ⟨by decide, pca_fit_centers_in_place (fun _ => 0) _ 1 (by decide) (by decide) (by decide)⟩

/-- One bubble pass permutes its input. -/
theorem sort_pass_perm (f : Nat) : ∀ l : List (ℚ × List ℚ), (sort_pass f l).Perm l := by
  induction f with
  | zero => intro l; simp [sort_pass]
  | succ f ih =>
    intro l
    match l with
    | [] => simp [sort_pass]
    | [x] => simp [sort_pass]
    | x :: y :: rest =>
      rw [sort_pass]
      by_cases h : x.1 < y.1
      · rw [if_pos h]
        exact ((ih (x :: rest)).cons y).trans (List.Perm.swap x y rest)
      · rw [if_neg h]
        exact (ih (y :: rest)).cons x

/-- Core invariant of one truncated bubble pass of `sort_eigen`: if the part
of the list beyond the pass (positions > f) is already sorted descending and
dominated by the first f+1 positions, then after the pass the suffix from
position f on is sorted descending and dominated by the first f positions,
and every element of that suffix is bounded by the old head or was already
beyond the pass. -/
theorem sort_pass_main : ∀ (f : Nat) (l : List (ℚ × List ℚ)),
    List.Pairwise (fun a b => b.1 ≤ a.1) (l.drop (f+1)) →
    (∀ a ∈ l.take (f+1), ∀ b ∈ l.drop (f+1), b.1 ≤ a.1) →
    List.Pairwise (fun a b => b.1 ≤ a.1) ((sort_pass f l).drop f) ∧
    (∀ a ∈ (sort_pass f l).take f, ∀ b ∈ (sort_pass f l).drop f, b.1 ≤ a.1) ∧
    (∀ z ∈ (sort_pass f l).drop f, ∀ x xs, l = x :: xs → z.1 ≤ x.1 ∨ z ∈ xs.drop f) := by
  intro f
  induction f with
  | zero =>
    intro l h1 h2
    refine ⟨?_, ?_, ?_⟩
    · rw [sort_pass]
      cases l with
      | nil => simp
      | cons x xs =>
        simp only [List.drop_zero]
        refine List.Pairwise.cons ?_ (by simpa using h1)
        intro b hb
        exact h2 x (by simp) b (by simpa using hb)
    · intro a ha
      rw [sort_pass] at ha
      simp at ha
    · intro z hz x xs hl
      subst hl
      rw [sort_pass] at hz
      simp only [List.drop_zero] at hz
      rcases List.mem_cons.mp hz with hzx | hz
      · exact Or.inl (by rw [hzx])
      · exact Or.inr (by simpa using hz)
  | succ f ih =>
    intro l h1 h2
    match l with
    | [] =>
      refine ⟨?_, ?_, ?_⟩ <;> simp [sort_pass]
    | [x] =>
      refine ⟨?_, ?_, ?_⟩ <;> simp [sort_pass]
    | x :: y :: rest =>
      have hd2 : (x :: y :: rest).drop (f+1+1) = rest.drop f := by simp
      have ht2 : (x :: y :: rest).take (f+1+1) = x :: y :: rest.take f := by simp
      rw [hd2] at h1
      rw [ht2, hd2] at h2
      by_cases hxy : x.1 < y.1
      · have hstep : sort_pass (f+1) (x :: y :: rest) = y :: sort_pass f (x :: rest) := by
          rw [sort_pass, if_pos hxy]
        have hih := ih (x :: rest)
          (by simpa using h1)
          (by
            intro a ha b hb
            simp only [List.take_succ_cons, List.mem_cons] at ha
            simp only [List.drop_succ_cons] at hb
            rcases ha with rfl | ha
            · exact h2 a (by simp) b hb
            · exact h2 a (by simp [ha]) b hb)
        refine ⟨?_, ?_, ?_⟩
        · rw [hstep, List.drop_succ_cons]
          exact hih.1
        · rw [hstep]
          intro a ha b hb
          simp only [List.take_succ_cons, List.mem_cons] at ha
          simp only [List.drop_succ_cons] at hb
          rcases ha with rfl | ha
          · rcases hih.2.2 b hb x rest rfl with hle | hmem
            · exact le_trans hle (le_of_lt hxy)
            · exact h2 a (by simp) b hmem
          · exact hih.2.1 a ha b hb
        · rw [hstep]
          intro z hz x0 xs0 hl0
          injection hl0 with hx0 hxs0
          subst hx0
          subst hxs0
          simp only [List.drop_succ_cons] at hz
          rcases hih.2.2 z hz x rest rfl with hle | hmem
          · exact Or.inl hle
          · exact Or.inr (by simpa using hmem)
      · have hyx : y.1 ≤ x.1 := le_of_not_lt hxy
        have hstep : sort_pass (f+1) (x :: y :: rest) = x :: sort_pass f (y :: rest) := by
          rw [sort_pass, if_neg hxy]
        have hih := ih (y :: rest)
          (by simpa using h1)
          (by
            intro a ha b hb
            simp only [List.take_succ_cons, List.mem_cons] at ha
            simp only [List.drop_succ_cons] at hb
            rcases ha with rfl | ha
            · exact h2 a (by simp) b hb
            · exact h2 a (by simp [ha]) b hb)
        refine ⟨?_, ?_, ?_⟩
        · rw [hstep, List.drop_succ_cons]
          exact hih.1
        · rw [hstep]
          intro a ha b hb
          simp only [List.take_succ_cons, List.mem_cons] at ha
          simp only [List.drop_succ_cons] at hb
          rcases ha with rfl | ha
          · rcases hih.2.2 b hb y rest rfl with hle | hmem
            · exact le_trans hle hyx
            · exact h2 a (by simp) b hmem
          · exact hih.2.1 a ha b hb
        · rw [hstep]
          intro z hz x0 xs0 hl0
          injection hl0 with hx0 hxs0
          subst hx0
          subst hxs0
          simp only [List.drop_succ_cons] at hz
          rcases hih.2.2 z hz y rest rfl with hle | hmem
          · exact Or.inl (le_trans hle hyx)
          · exact Or.inr (by simpa using hmem)

/-- The outer loop of `sort_eigen` sorts once the invariant holds. -/
theorem sort_go_main : ∀ (m : Nat) (l : List (ℚ × List ℚ)),
    List.Pairwise (fun a b => b.1 ≤ a.1) (l.drop (m+1)) →
    (∀ a ∈ l.take (m+1), ∀ b ∈ l.drop (m+1), b.1 ≤ a.1) →
    (sort_go m l).Perm l ∧ List.Pairwise (fun a b => b.1 ≤ a.1) (sort_go m l) := by
  intro m
  induction m with
  | zero =>
    intro l h1 h2
    rw [sort_go]
    refine ⟨List.Perm.refl l, ?_⟩
    cases l with
    | nil => simp
    | cons x xs =>
      refine List.Pairwise.cons ?_ (by simpa using h1)
      intro b hb
      exact h2 x (by simp) b (by simpa using hb)
  | succ m ih =>
    intro l h1 h2
    have hmain := sort_pass_main (m+1) l h1 h2
    have hg := ih (sort_pass (m+1) l) hmain.1 hmain.2.1
    rw [sort_go]
    exact ⟨hg.1.trans (sort_pass_perm (m+1) l), hg.2⟩

/-- Claim C2: `sort_eigen` returns the (eigenvalue, eigenvector-column) pairs
in descending eigenvalue order — eigenvalues[i] ≥ eigenvalues[i+1] for every
adjacent pair — and the output pairs are a permutation of the input pairs, so
eigenvalue j and eigenvector column j always refer to the same original
pair. -/
theorem sort_eigen_desc_perm (l : List (ℚ × List ℚ)) :
    (sort_eigen l).Perm l ∧
    ∀ i, i + 1 < (sort_eigen l).length →
      ((sort_eigen l).getD (i+1) (0, [])).1 ≤ ((sort_eigen l).getD i (0, [])).1 := by
  have hnil : l.drop (l.length - 1 + 1) = [] := by
    rw [List.drop_eq_nil_iff]
    omega
  have h := sort_go_main (l.length - 1) l (by rw [hnil]; exact List.Pairwise.nil)
    (by intro a _ b hb; rw [hnil] at hb; simp at hb)
  refine ⟨h.1, ?_⟩
  intro i hi
  have hi' : i + 1 < (sort_go (l.length - 1) l).length := hi
  have hp := List.pairwise_iff_getElem.mp h.2 i (i+1) (by omega) hi' (by omega)
  rw [List.getD_eq_getElem _ _ hi, List.getD_eq_getElem _ _ (Nat.lt_of_succ_lt hi)]
  exact hp

/-- Concrete instance of the sorting claim: the pairs (1, e1), (3, e2) come
out as (3, e2), (1, e1) — descending and with the pairing preserved. -/
theorem sort_eigen_desc_perm_witness :
    (sort_eigen [((1 : ℚ), [(1 : ℚ), 0]), ((3 : ℚ), [(0 : ℚ), 1])]).Perm
      [((1 : ℚ), [(1 : ℚ), 0]), ((3 : ℚ), [(0 : ℚ), 1])] ∧
    ((sort_eigen [((1 : ℚ), [(1 : ℚ), 0]), ((3 : ℚ), [(0 : ℚ), 1])]).getD 1 (0, [])).1
      ≤ ((sort_eigen [((1 : ℚ), [(1 : ℚ), 0]), ((3 : ℚ), [(0 : ℚ), 1])]).getD 0 (0, [])).1 :=
  ⟨(sort_eigen_desc_perm _).1, (sort_eigen_desc_perm _).2 0 (by decide)⟩

/-- Normalization preserves the vector length. -/
theorem vector_normalize_len (sqrt : ℚ → ℚ) (w : List ℚ) (n : Nat) (h : w.length = n) :
    (vector_normalize sqrt w n).length = n := by
  simp only [vector_normalize]
  split
  · simp
  · exact h

/-- The power-iteration loop keeps vectors at length n. -/
theorem power_iter_len (sqrt : ℚ → ℚ) (A : Matrix) (n : Nat) (tol : ℚ) :
    ∀ (fuel : Nat) (lam : ℚ) (v : List ℚ), v.length = n →
      ((power_iter sqrt A n tol fuel lam v).2).length = n := by
  intro fuel
  induction fuel with
  | zero => intro lam v h; exact h
  | succ fuel ih =>
    intro lam v h
    rw [power_iter]
    split
    · exact vector_normalize_len sqrt _ n (by simp [mat_vec])
    · exact ih _ _ (vector_normalize_len sqrt _ n (by simp [mat_vec]))

/-- A length-n list is recovered by reading indices 0..n-1. -/
theorem map_range_getD_eq (n : Nat) (v : List ℚ) (h : v.length = n) :
    (List.range n).map (fun i => v.getD i 0) = v := by
  refine List.ext_getElem (by simp [h]) ?_
  intro i hi hi'
  simp only [List.getElem_map, List.getElem_range]
  rw [List.getD_eq_getElem _ _ (by simpa [h] using hi')]

/-- Shape facts for `set_column` on an n×n well-formed matrix. -/
theorem set_column_shape (m : Matrix) (k : Nat) (v : List ℚ) (n : Nat)
    (hdl : m.data.length = n) (hrl : ∀ row ∈ m.data, row.length = n) :
    (set_column m k v n).rows = m.rows ∧ (set_column m k v n).cols = m.cols ∧
    (set_column m k v n).data.length = n ∧
    (∀ row ∈ (set_column m k v n).data, row.length = n) := by
  refine ⟨rfl, rfl, by simp [set_column, hdl], ?_⟩
  intro row hrow
  simp only [set_column, List.mem_iff_getElem] at hrow
  obtain ⟨i, hi, hrow⟩ := hrow
  rw [List.getElem_zipWith] at hrow
  subst hrow
  split
  · rw [List.length_set]
    exact hrl _ (List.getElem_mem _)
  · exact hrl _ (List.getElem_mem _)

/-- Reading back the column just written by `set_column`. -/
theorem get_column_set_self (m : Matrix) (k : Nat) (v : List ℚ) (n : Nat)
    (hrows : m.rows = n) (hdl : m.data.length = n)
    (hrl : ∀ row ∈ m.data, row.length = n) (hk : k < n) :
    get_column (set_column m k v n) k = (List.range n).map (fun i => v.getD i 0) := by
  unfold get_column
  have hr : (set_column m k v n).rows = n := hrows
  rw [hr]
  refine List.map_congr_left ?_
  intro i hi
  have hi' : i < n := List.mem_range.mp hi
  have hzl : i < (List.zipWith (fun i row => if i < n then row.set k (v.getD i 0) else row)
      (List.range m.data.length) m.data).length := by
    simp [hdl]
    omega
  show (set_column m k v n).get i k = v.getD i 0
  unfold set_column Matrix.get
  simp only
  rw [List.getD_eq_getElem _ _ hzl, List.getElem_zipWith, List.getElem_range,
    if_pos (by omega : (i : Nat) < n)]
  have hib : i < m.data.length := by omega
  have hlen : (m.data[i]).length = n := hrl _ (List.getElem_mem _)
  rw [List.getD_eq_getElem _ _ (by simp [hlen]; omega), List.getElem_set_self _]

/-- Columns other than the one written are unchanged by `set_column`. -/
theorem get_column_set_other (m : Matrix) (k j : Nat) (v : List ℚ) (n : Nat)
    (hne : j ≠ k) :
    get_column (set_column m k v n) j = get_column m j := by
  unfold get_column
  have hr : (set_column m k v n).rows = m.rows := rfl
  rw [hr]
  refine List.map_congr_left ?_
  intro i _
  show (set_column m k v n).get i j = m.get i j
  unfold set_column Matrix.get
  simp only
  by_cases hi : i < m.data.length
  · have hzl : i < (List.zipWith (fun i row => if i < n then row.set k (v.getD i 0) else row)
        (List.range m.data.length) m.data).length := by
      simp
      omega
    rw [List.getD_eq_getElem _ _ hzl, List.getElem_zipWith, List.getElem_range]
    split
    · by_cases hj : j < (m.data[i]).length
      · rw [List.getD_eq_getElem _ _ (by simpa using hj),
          List.getElem_set_ne (fun h => hne h.symm),
          List.getD_eq_getElem _ _ hi, List.getD_eq_getElem _ _ hj]
      · rw [List.getD_eq_default _ _ (by simpa using Nat.le_of_not_lt hj),
          List.getD_eq_getElem _ _ hi,
          List.getD_eq_default _ _ (by simpa using Nat.le_of_not_lt hj)]
    · rw [List.getD_eq_getElem _ _ hi]
  · have hge : m.data.length ≤ i := Nat.le_of_not_lt hi
    have h1 : (List.zipWith (fun i row => if i < n then row.set k (v.getD i 0) else row)
        (List.range m.data.length) m.data).getD i [] = [] :=
      List.getD_eq_default _ _ (by simp; omega)
    have h2 : m.data.getD i [] = [] := List.getD_eq_default _ _ hge
    rw [h1, h2]

/-- The outer eigen loop preserves the buffer length and the matrix
dimension fields. -/
theorem eigen_go_shape (sqrt : ℚ → ℚ) (n maxIt : Nat) (tol : ℚ) :
    ∀ (fuel k : Nat) (A : Matrix) (evs : List ℚ) (evec : Matrix),
    (eigen_go sqrt n maxIt tol fuel k A evs evec).1.length = evs.length ∧
    (eigen_go sqrt n maxIt tol fuel k A evs evec).2.rows = evec.rows ∧
    (eigen_go sqrt n maxIt tol fuel k A evs evec).2.cols = evec.cols := by
  intro fuel
  induction fuel with
  | zero => intro k A evs evec; rw [eigen_go]; exact ⟨rfl, rfl, rfl⟩
  | succ fuel ih =>
    intro k A evs evec
    rw [eigen_go]
    have h := ih (k+1)
      (deflate n A (power_iter sqrt A n tol maxIt 0 (List.replicate n (1 / sqrt (n : ℚ)))).1
        (power_iter sqrt A n tol maxIt 0 (List.replicate n (1 / sqrt (n : ℚ)))).2)
      (evs.set k (power_iter sqrt A n tol maxIt 0 (List.replicate n (1 / sqrt (n : ℚ)))).1)
      (set_column evec k
        (power_iter sqrt A n tol maxIt 0 (List.replicate n (1 / sqrt (n : ℚ)))).2 n)
    exact ⟨h.1.trans (by simp), h.2.1, h.2.2⟩

/-- Reading back the entry just written by `List.set`. -/
theorem getD_set_self (l : List ℚ) (k : Nat) (a : ℚ) (h : k < l.length) :
    (l.set k a).getD k 0 = a := by
  rw [List.getD_eq_getElem _ _ (by simpa using h), List.getElem_set_self _]

/-- Entries other than the one written are unchanged by `List.set`. -/
theorem getD_set_ne (l : List ℚ) (k j : Nat) (a : ℚ) (h : j ≠ k) :
    (l.set k a).getD j 0 = l.getD j 0 := by
  by_cases hj : j < l.length
  · rw [List.getD_eq_getElem _ _ (by simpa using hj), List.getD_eq_getElem _ _ hj,
      List.getElem_set_ne (fun he => h he.symm)]
  · have hge := Nat.le_of_not_lt hj
    rw [List.getD_eq_default _ _ (by simpa using hge), List.getD_eq_default _ _ hge]

/-- Main invariant of the outer eigen loop: starting at index k with `fuel`
rounds left, the loop writes exactly the spec-level deflation sequence of the
current working matrix into positions k, k+1, ..., and leaves positions below
k untouched; the buffer shapes stay n. -/
theorem eigen_go_main (sqrt : ℚ → ℚ) (n maxIt : Nat) (tol : ℚ) :
    ∀ (fuel k : Nat) (A : Matrix) (evs : List ℚ) (evec : Matrix),
    k + fuel ≤ n → evs.length = n →
    evec.rows = n → evec.cols = n → evec.data.length = n →
    (∀ row ∈ evec.data, row.length = n) →
    ((eigen_go sqrt n maxIt tol fuel k A evs evec).1.length = n ∧
     (eigen_go sqrt n maxIt tol fuel k A evs evec).2.rows = n ∧
     (eigen_go sqrt n maxIt tol fuel k A evs evec).2.cols = n ∧
     (eigen_go sqrt n maxIt tol fuel k A evs evec).2.data.length = n ∧
     (∀ row ∈ (eigen_go sqrt n maxIt tol fuel k A evs evec).2.data, row.length = n) ∧
     (∀ j, j < fuel →
        (eigen_go sqrt n maxIt tol fuel k A evs evec).1.getD (k+j) 0
          = ((spec_eigen_pairs sqrt n maxIt tol fuel A).getD j (0, [])).1 ∧
        get_column (eigen_go sqrt n maxIt tol fuel k A evs evec).2 (k+j)
          = ((spec_eigen_pairs sqrt n maxIt tol fuel A).getD j (0, [])).2) ∧
     (∀ j, j < k →
        (eigen_go sqrt n maxIt tol fuel k A evs evec).1.getD j 0 = evs.getD j 0 ∧
        get_column (eigen_go sqrt n maxIt tol fuel k A evs evec).2 j
          = get_column evec j)) := by
  intro fuel
  induction fuel with
  | zero =>
    intro k A evs evec hkf hevs hr hc hdl hrl
    rw [eigen_go]
    exact ⟨hevs, hr, hc, hdl, hrl,
      fun j hj => absurd hj (by omega), fun j _ => ⟨rfl, rfl⟩⟩
  | succ fuel ih =>
    intro k A evs evec hkf hevs hr hc hdl hrl
    have hkn : k < n := by omega
    set p := power_iter sqrt A n tol maxIt 0 (List.replicate n (1 / sqrt (n : ℚ))) with hpdef
    have hstep : eigen_go sqrt n maxIt tol (fuel+1) k A evs evec
        = eigen_go sqrt n maxIt tol fuel (k+1) (deflate n A p.1 p.2)
            (evs.set k p.1) (set_column evec k p.2 n) := by
      rw [eigen_go]
    have hspec : spec_eigen_pairs sqrt n maxIt tol (fuel+1) A
        = p :: spec_eigen_pairs sqrt n maxIt tol fuel (deflate n A p.1 p.2) := by
      rw [spec_eigen_pairs]
    have hplen : p.2.length = n :=
      power_iter_len sqrt A n tol maxIt 0 _ (by simp)
    have hsc := set_column_shape evec k p.2 n hdl hrl
    have hres := ih (k+1) (deflate n A p.1 p.2) (evs.set k p.1) (set_column evec k p.2 n)
      (by omega) (by simp [hevs]) (hsc.1.trans hr) (hsc.2.1.trans hc) hsc.2.2.1 hsc.2.2.2
    obtain ⟨h1, h2, h3, h4, h5, hwin, hbelow⟩ := hres
    rw [hstep, hspec]
    refine ⟨h1, h2, h3, h4, h5, ?_, ?_⟩
    · intro j hj
      cases j with
      | zero =>
        have hb := hbelow k (by omega)
        constructor
        · simp only [Nat.add_zero, List.getD_cons_zero]
          rw [hb.1, getD_set_self evs k p.1 (by omega)]
        · simp only [Nat.add_zero, List.getD_cons_zero]
          rw [hb.2, get_column_set_self evec k p.2 n hr hdl hrl hkn,
            map_range_getD_eq n p.2 hplen]
      | succ j =>
        have hw := hwin j (by omega)
        have harith : k + (j+1) = (k+1) + j := by omega
        constructor
        · rw [harith, hw.1, List.getD_cons_succ]
        · rw [harith, hw.2, List.getD_cons_succ]
    · intro j hj
      have hb := hbelow j (by omega)
      exact ⟨hb.1.trans (getD_set_ne evs k j p.1 (by omega)),
        hb.2.trans (get_column_set_other evec k j p.2 n (by omega))⟩

/-- Claim C10: `compute_eigen` never mutates its covariance input — deflation
runs on a fresh internal copy — so the returned post-state of `cov_matrix` is
the input itself, and the dimension fields of the eigenvector argument are
also unchanged; when the working-copy allocation fails (zero dimension, the
embedding's only allocation failure) nothing is written at all. -/
theorem compute_eigen_preserves_input (sqrt : ℚ → ℚ) (cov : Matrix) (evs : List ℚ)
    (evec : Matrix) (maxIt : Nat) (tol : ℚ) :
    (cov.rows = 0 → compute_eigen sqrt cov evs evec maxIt tol = none) ∧
    (0 < cov.rows → ∃ evs2 evec2,
      compute_eigen sqrt cov evs evec maxIt tol = some (cov, evs2, evec2) ∧
      evs2.length = evs.length ∧ evec2.rows = evec.rows ∧ evec2.cols = evec.cols) := by
  constructor
  · intro h
    unfold compute_eigen matrix_create
    rw [if_pos (Or.inl h)]
  · intro h
    rw [compute_eigen_eq sqrt cov evs evec maxIt tol h]
    have hs := eigen_go_shape sqrt cov.rows maxIt tol cov.rows 0
      (matrix_copy ⟨cov.rows, cov.rows,
        List.replicate cov.rows (List.replicate cov.rows 0)⟩ cov) evs evec
    exact ⟨_, _, rfl, hs.1, hs.2.1, hs.2.2⟩

/-- Concrete instance of the frame claim for `compute_eigen` on a 1×1
covariance matrix: the covariance argument comes back unchanged. -/
theorem compute_eigen_preserves_input_witness :
    0 < (Matrix.mk 1 1 [[2]]).rows ∧
    ∃ evs2 evec2,
      compute_eigen (fun _ => 1) (Matrix.mk 1 1 [[2]]) [0] (Matrix.mk 1 1 [[0]]) 1 ten_neg10
        = some (Matrix.mk 1 1 [[2]], evs2, evec2) ∧
      evs2.length = 1 ∧ evec2.rows = 1 ∧ evec2.cols = 1 :=
  ⟨by decide,
   (compute_eigen_preserves_input (fun _ => 1) (Matrix.mk 1 1 [[2]]) [0]
      (Matrix.mk 1 1 [[0]]) 1 ten_neg10).2 (by decide)⟩

/-- Claim C1: `compute_eigen` computes eigenpair k, for k = 0..C-1 in order,
by power iteration on the successively deflated matrix: (a) when the
iteration budget is exhausted the last computed pair is accepted as is, with
no failure signalled; (b) the loop stops early as soon as the Rayleigh
quotient of the pre-normalization product vector against the previous iterate
is within `tolerance` of the previous candidate, accepting that quotient and
the normalized product vector; (c) on a square input with positive dimension
the engine succeeds (its only hard failure is the working-copy allocation)
and stores, at index k, exactly the pair that power iteration started from
the deterministic all-1/sqrt(C) seed finds on the k-times-deflated input. -/
theorem compute_eigen_power_iteration (sqrt : ℚ → ℚ) (cov : Matrix) (evs : List ℚ)
    (evec : Matrix) (maxIt : Nat) (tol : ℚ)
    (hn : 0 < cov.rows) (hsq : cov.cols = cov.rows)
    (hevs : evs.length = cov.rows)
    (hr : evec.rows = cov.rows) (hc : evec.cols = cov.rows)
    (hdl : evec.data.length = cov.rows)
    (hrl : ∀ row ∈ evec.data, row.length = cov.rows) :
    (∀ (A : Matrix) (n : Nat) (lam : ℚ) (v : List ℚ),
      power_iter sqrt A n tol 0 lam v = (lam, v)) ∧
    (∀ (A : Matrix) (n fuel : Nat) (lam : ℚ) (v : List ℚ),
      |ray_quot (mat_vec A v n) v n - lam| < tol →
      power_iter sqrt A n tol (fuel+1) lam v
        = (ray_quot (mat_vec A v n) v n, vector_normalize sqrt (mat_vec A v n) n)) ∧
    (∃ evs2 evec2, compute_eigen sqrt cov evs evec maxIt tol = some (cov, evs2, evec2) ∧
      ∀ k, k < cov.rows →
        evs2.getD k 0
          = ((spec_eigen_pairs sqrt cov.rows maxIt tol cov.rows cov).getD k (0, [])).1 ∧
        get_column evec2 k
          = ((spec_eigen_pairs sqrt cov.rows maxIt tol cov.rows cov).getD k (0, [])).2) := by
  refine ⟨fun A n lam v => by rw [power_iter], ?_, ?_⟩
  · intro A n fuel lam v hconv
    rw [power_iter]
    simp only [if_pos hconv]
  · have hcopy : matrix_copy ⟨cov.rows, cov.rows,
        List.replicate cov.rows (List.replicate cov.rows 0)⟩ cov = cov := by
      unfold matrix_copy
      rw [if_neg (by simp [hsq])]
      obtain ⟨a, b, c⟩ := cov
      simp only at hsq ⊢
      rw [hsq]
    rw [compute_eigen_eq sqrt cov evs evec maxIt tol hn, hcopy]
    have hm := eigen_go_main sqrt cov.rows maxIt tol cov.rows 0 cov evs evec
      (by omega) hevs hr hc hdl hrl
    refine ⟨_, _, rfl, ?_⟩
    intro k hk
    have hw := hm.2.2.2.2.2.1 k hk
    rw [Nat.zero_add] at hw
    exact hw

/-- Concrete instance of the eigen-engine claim on the 1×1 covariance matrix
[[2]] with one iteration allowed: exhaustion accepts (8, [4]) — the engine
reports it at index 0 exactly as the seeded power iteration produces it — and
the two loop laws hold at sample arguments. -/
theorem compute_eigen_power_iteration_witness :
    0 < (Matrix.mk 1 1 [[2]]).rows ∧
    power_iter (fun _ => 1) (Matrix.mk 1 1 [[3]]) 1 ten_neg10 0 5 [7] = (5, [7]) ∧
    power_iter (fun _ => 1) (Matrix.mk 1 1 [[0]]) 1 ten_neg10 1 0 [1]
      = (ray_quot (mat_vec (Matrix.mk 1 1 [[0]]) [1] 1) [1] 1,
         vector_normalize (fun _ => 1) (mat_vec (Matrix.mk 1 1 [[0]]) [1] 1) 1) ∧
    (∃ evs2 evec2,
      compute_eigen (fun _ => 1) (Matrix.mk 1 1 [[2]]) [0] (Matrix.mk 1 1 [[0]]) 1 ten_neg10
        = some (Matrix.mk 1 1 [[2]], evs2, evec2) ∧
      ∀ k, k < 1 →
        evs2.getD k 0
          = ((spec_eigen_pairs (fun _ => 1) 1 1 ten_neg10 1 (Matrix.mk 1 1 [[2]])).getD k (0, [])).1 ∧
        get_column evec2 k
          = ((spec_eigen_pairs (fun _ => 1) 1 1 ten_neg10 1 (Matrix.mk 1 1 [[2]])).getD k (0, [])).2) :=
  have h := compute_eigen_power_iteration (fun _ => 1) (Matrix.mk 1 1 [[2]]) [0]
    (Matrix.mk 1 1 [[0]]) 1 ten_neg10 (by decide) (by decide) (by decide) (by decide)
    (by decide) (by decide) (by decide)
  ⟨by decide, h.1 (Matrix.mk 1 1 [[3]]) 1 5 [7],
   h.2.1 (Matrix.mk 1 1 [[0]]) 1 0 0 [1]
     (by
       have h0 : ray_quot (mat_vec (Matrix.mk 1 1 [[0]]) [1] 1) [1] 1 = 0 := by
         norm_num [ray_quot, mat_vec, Matrix.get, List.range_succ, List.range_zero]
       rw [h0]
       norm_num [ten_neg10]),
   h.2.2⟩

end PCA
